import Mathlib

/-!
Shallow embedding of the batch-maestro partitioning library (src/lib.rs).

The Rust library returns `Result<_, String>`; several functions additionally
contain `NonZeroUsize::new(..).unwrap()` calls and unchecked integer division,
which panic when the argument is zero.  We therefore model each such function
as `Option (Except String _)`: `none` is a panic, `some (Except.error e)` a
returned error, `some (Except.ok v)` a success.  `split_by_count` and
`split_range` contain no panicking operation on a reachable path other than
those modelled, so `split_by_count` (whose zero-size check uses `ok_or_else`)
and `split_range` are plain `Except`.

`NonZeroUsize` values are modelled as the underlying `Nat`; the invariant is
carried by `nzNew`, which is `none` exactly when `NonZeroUsize::new` returns
`None` (and the subsequent `.unwrap()` would panic).
-/

namespace BatchMaestro

/-- Model of `NonZeroUsize::new`: `none` exactly on zero. -/
def nzNew (n : Nat) : Option Nat :=
  if n = 0 then none else some n

/-- Rust integer division panics when the divisor is zero; model as `none`. -/
def checkedDiv (a b : Nat) : Option Nat :=
  if b = 0 then none else some (a / b)

/-- Rust remainder panics when the divisor is zero; model as `none`. -/
def checkedMod (a b : Nat) : Option Nat :=
  if b = 0 then none else some (a % b)

def errTotal : String := "Total must be a positive number"

def errMaxBatch : String := "Max batch size must be a positive number"

def errWeightsEmpty : String := "Weights vector must not be empty"

def errWeightZero : String := "All weights must be positive numbers"

def errMinBatchSize : String := "Minimum batch size must be a positive number"

def errSizeRange : String := "Maximum batch size must be greater than or equal to minimum batch size"

def errMinBatches : String := "Minimum number of batches must be a positive number"

def errBatchRange : String := "Maximum number of batches must be greater than or equal to minimum number of batches"

def errMinLeMax : String := "Min batch size must be less than or equal to max batch size"

def errNumBatches : String := "Number of batches must be a positive number"

def errNz : String := "Failed to create NonZeroUsize"

/-- The `while batch_size > 1` scan of `even_split` (src/lib.rs:83-90): walk
`b` downward, return the first `b ≥ 2` dividing `total`, else `none`. -/
def find_divisor (total : Nat) : Nat → Option Nat
  | 0 => none
  | 1 => none
  | b + 2 => if total % (b + 2) = 0 then some (b + 2) else find_divisor total (b + 1)

/-- Model of `even_split` (src/lib.rs:71-93). -/
def even_split (total max_batch_size : Nat) : Option (Except String (Nat × List Nat)) :=
  if total = 0 then some (Except.error errTotal)
  else if max_batch_size = 0 then some (Except.error errMaxBatch)
  else if total ≤ max_batch_size then
    (nzNew total).map fun t => Except.ok (1, [t])
  else
    match find_divisor total max_batch_size with
    | some d => (nzNew d).map fun s => Except.ok (total / d, List.replicate (total / d) s)
    | none => (nzNew 1).map fun s => Except.ok (total, List.replicate total s)

/-- The indexed loop of `split_weighted` (src/lib.rs:137-145): every element
except the last pushes `total * w / weight_sum`, the last pushes `remaining`;
`remaining` decreases by each pushed size.  Each push goes through
`NonZeroUsize::new(..).unwrap()`, modelled by `nzNew`. -/
def swLoop (total weight_sum : Nat) : List Nat → Nat → Option (List Nat)
  | [], _ => some []
  | [_], remaining => (nzNew remaining).map fun s => [s]
  | w :: w2 :: ws, remaining =>
    (nzNew (total * w / weight_sum)).bind fun s =>
      (swLoop total weight_sum (w2 :: ws) (remaining - (total * w / weight_sum))).map
        fun rest => s :: rest

/-- Model of `split_weighted` (src/lib.rs:122-148). -/
def split_weighted (total : Nat) (weights : List Nat) : Option (Except String (List Nat)) :=
  if total = 0 then some (Except.error errTotal)
  else if weights = [] then some (Except.error errWeightsEmpty)
  else if weights.any fun w => w == 0 then some (Except.error errWeightZero)
  else (swLoop total weights.sum weights total).map Except.ok

/-- The `(min..=max).rev()` loop of `split_range` (src/lib.rs:190-196),
iterating the candidate batch size downward; a configuration is kept only
when it yields at least one whole batch.  Only called with
`min_batch_size ≥ 1`, so reaching fuel `0` coincides with the Rust loop
running out of candidates. -/
def srLoop (total min_batch_size : Nat) : Nat → List (Nat × Nat × Nat)
  | 0 => []
  | b + 1 =>
    if b + 1 < min_batch_size then []
    else
      (if 0 < total / (b + 1) then [(total / (b + 1), b + 1, total % (b + 1))] else []) ++
        srLoop total min_batch_size b

/-- Model of `split_range` (src/lib.rs:178-199). -/
def split_range (total min_batch_size max_batch_size : Nat) :
    Except String (List (Nat × Nat × Nat)) :=
  if total = 0 then Except.error errTotal
  else if min_batch_size = 0 then Except.error errMinBatchSize
  else if max_batch_size < min_batch_size then Except.error errSizeRange
  else Except.ok (srLoop total min_batch_size max_batch_size)

/-- The `for num_batches in min_batches..=max_batches` loop of
`optimize_split` (src/lib.rs:246-255): state is the current candidate `k`,
the remaining iteration count, and the best `(best, minRem)` so far; the
best is updated on a strictly smaller remainder, and the loop breaks the
moment the current remainder is zero. -/
def osLoop (total : Nat) : Nat → Nat → Nat → Nat → Nat × Nat
  | _, 0, best, minRem => (best, minRem)
  | k, steps + 1, best, minRem =>
    if total % k < minRem then
      if total % k = 0 then (k, total % k)
      else osLoop total (k + 1) steps k (total % k)
    else
      if total % k = 0 then (best, minRem)
      else osLoop total (k + 1) steps best minRem

/-- The construction phase of `optimize_split` (src/lib.rs:257-263): the
vector is `vec![nz(base).unwrap(); best]` with the first `minRem` entries
overwritten by `nz(base + 1).unwrap()`; since `minRem < best` on every
reachable path this equals the indexed map below, and the only fallible
unwrap is the one on `base`. -/
def osBuild (total best minRem : Nat) : Option (Except String (Nat × List Nat)) :=
  (nzNew (total / best)).map fun base =>
    Except.ok (best, (List.range best).map fun i => if i < minRem then base + 1 else base)

/-- Model of `optimize_split` (src/lib.rs:232-264). -/
def optimize_split (total min_batches max_batches : Nat) :
    Option (Except String (Nat × List Nat)) :=
  if total = 0 then some (Except.error errTotal)
  else if min_batches = 0 then some (Except.error errMinBatches)
  else if max_batches < min_batches then some (Except.error errBatchRange)
  else
    osBuild total
      (osLoop total min_batches (max_batches - min_batches + 1) min_batches total).1
      (osLoop total min_batches (max_batches - min_batches + 1) min_batches total).2

/-- The push loop of `split_with_min_batch` and its `NonZeroUsize` unwraps:
each already-computed size passes through `NonZeroUsize::new(..).unwrap()`,
so the whole loop panics iff any size is zero. -/
def nzAll : List Nat → Option (List Nat)
  | [] => some []
  | x :: xs => (nzNew x).bind fun s => (nzAll xs).map fun rest => s :: rest

/-- Model of `split_with_min_batch` (src/lib.rs:298-320).  The divisions by
`min_batch_size` and `num_batches` are the Rust `/` and `%`, which panic on a
zero divisor (`min_batch_size = 0` passes the validation and reaches them). -/
def split_with_min_batch (total max_batch_size min_batch_size : Nat) :
    Option (Except String (Nat × List Nat)) :=
  if total = 0 then some (Except.error errTotal)
  else if max_batch_size = 0 then some (Except.error errMaxBatch)
  else if max_batch_size < min_batch_size then some (Except.error errMinLeMax)
  else
    (checkedDiv (total + min_batch_size - 1) min_batch_size).bind fun num_batches =>
    (checkedDiv total num_batches).bind fun base_size =>
    (checkedMod total num_batches).bind fun remainder =>
    (nzAll ((List.range num_batches).map fun i =>
        base_size + if i < remainder then 1 else 0)).map fun sizes =>
      Except.ok (num_batches, sizes)

/-- Model of `NonZeroUsize::new(size).ok_or_else(|| "Failed to create
NonZeroUsize")` in `split_by_count` (src/lib.rs:366). -/
def nzExcept (n : Nat) : Except String Nat :=
  match nzNew n with
  | none => Except.error errNz
  | some s => Except.ok s

/-- The push loop of `split_by_count`: each computed size goes through
`NonZeroUsize::new(size).ok_or_else(..)?`, so the loop stops with the
distinct error the moment a size is zero. -/
def sbcLoop : List Nat → Except String (List Nat)
  | [] => Except.ok []
  | x :: xs =>
    match nzExcept x with
    | Except.error e => Except.error e
    | Except.ok s =>
      match sbcLoop xs with
      | Except.error e => Except.error e
      | Except.ok rest => Except.ok (s :: rest)

/-- Model of `split_by_count` (src/lib.rs:352-370). -/
def split_by_count (total num_batches : Nat) : Except String (List Nat) :=
  if total = 0 then Except.error errTotal
  else if num_batches = 0 then Except.error errNumBatches
  else
    sbcLoop ((List.range num_batches).map fun i =>
      total / num_batches + if i < total % num_batches then 1 else 0)

/-- Model of `split_with_remainder` (src/lib.rs:406-426). -/
def split_with_remainder (total max_batch_size : Nat) :
    Option (Except String (Nat × List Nat × Nat)) :=
  if total = 0 then some (Except.error errTotal)
  else if max_batch_size = 0 then some (Except.error errMaxBatch)
  else if total / max_batch_size = 0 then
    (nzNew total).map fun t => Except.ok (1, [t], 0)
  else
    (nzNew max_batch_size).map fun m =>
      Except.ok (total / max_batch_size,
        List.replicate (total / max_batch_size) m, total % max_batch_size)


/-- `nzNew` succeeds exactly on positive input, returning it unchanged. -/
lemma nzNew_pos {n : Nat} (h : 0 < n) : nzNew n = some n := by
  simp [nzNew, Nat.pos_iff_ne_zero.mp h]

lemma nzNew_eq_some {n s : Nat} (h : nzNew n = some s) : s = n ∧ 0 < n := by
  by_cases h0 : n = 0
  · simp [nzNew, h0] at h
  · simp [nzNew, h0] at h
    exact ⟨h.symm, Nat.pos_of_ne_zero h0⟩

lemma checkedDiv_pos (a : Nat) {b : Nat} (h : 0 < b) : checkedDiv a b = some (a / b) := by
  simp [checkedDiv, Nat.pos_iff_ne_zero.mp h]

lemma checkedMod_pos (a : Nat) {b : Nat} (h : 0 < b) : checkedMod a b = some (a % b) := by
  simp [checkedMod, Nat.pos_iff_ne_zero.mp h]

/-- The unwrap-every-element loop succeeds iff no element is zero, and then
returns the list unchanged. -/
lemma nzAll_eq (xs : List Nat) : nzAll xs = if 0 ∈ xs then none else some xs := by
  induction xs with
  | nil => simp [nzAll]
  | cons x xs ih =>
    by_cases x0 : x = 0
    · subst x0; simp [nzAll, nzNew]
    · rw [nzAll, nzNew_pos (Nat.pos_of_ne_zero x0), ih]
      by_cases hm : 0 ∈ xs
      · simp [hm, x0, List.mem_cons]
      · simp [hm, x0, List.mem_cons, Ne.symm x0]

/-- The `split_by_count` push loop returns the list unchanged when no element
is zero, and the distinct `NonZeroUsize` error otherwise. -/
lemma sbcLoop_eq (xs : List Nat) :
    sbcLoop xs = if 0 ∈ xs then Except.error errNz else Except.ok xs := by
  induction xs with
  | nil => simp [sbcLoop]
  | cons x xs ih =>
    by_cases x0 : x = 0
    · subst x0; simp [sbcLoop, nzExcept, nzNew]
    · rw [sbcLoop]
      have : nzExcept x = Except.ok x := by
        simp [nzExcept, nzNew_pos (Nat.pos_of_ne_zero x0)]
      rw [this, ih]
      by_cases hm : 0 ∈ xs
      · simp [hm, x0, List.mem_cons]
      · simp [hm, x0, List.mem_cons, Ne.symm x0]

/-- Sum of the front-loaded distribution list: `n` entries of `base`, the
first `min rem n` of them carrying one extra unit. -/
lemma sum_dist (base rem n : Nat) :
    ((List.range n).map fun i => base + if i < rem then 1 else 0).sum
      = n * base + min rem n := by
  induction n with
  | zero => simp
  | succ n ih =>
    rw [List.range_succ, List.map_append, List.sum_append, ih]
    by_cases h : n < rem
    · rw [Nat.min_eq_right (by omega : n ≤ rem), Nat.min_eq_right (by omega : n + 1 ≤ rem)]
      simp only [List.map_cons, List.map_nil, List.sum_cons, List.sum_nil, if_pos h]
      ring
    · rw [Nat.min_eq_left (by omega : rem ≤ n), Nat.min_eq_left (by omega : rem ≤ n + 1)]
      simp only [List.map_cons, List.map_nil, List.sum_cons, List.sum_nil, if_neg h]
      ring

/-- Variant of `sum_dist` for the overwrite-style construction of
`optimize_split`. -/
lemma sum_dist' (base rem n : Nat) :
    ((List.range n).map fun i => if i < rem then base + 1 else base).sum
      = n * base + min rem n := by
  induction n with
  | zero => simp
  | succ n ih =>
    rw [List.range_succ, List.map_append, List.sum_append, ih]
    by_cases h : n < rem
    · rw [Nat.min_eq_right (by omega : n ≤ rem), Nat.min_eq_right (by omega : n + 1 ≤ rem)]
      simp only [List.map_cons, List.map_nil, List.sum_cons, List.sum_nil, if_pos h]
      ring
    · rw [Nat.min_eq_left (by omega : rem ≤ n), Nat.min_eq_left (by omega : rem ≤ n + 1)]
      simp only [List.map_cons, List.map_nil, List.sum_cons, List.sum_nil, if_neg h]
      ring

/-- When every candidate size exceeds `total`, the range scan keeps nothing. -/
lemma srLoop_eq_nil (total minb : Nat) (h : total < minb) :
    ∀ b, srLoop total minb b = [] := by
  intro b
  induction b with
  | zero => rfl
  | succ b ih =>
    rw [srLoop]
    by_cases hb : b + 1 < minb
    · simp [hb]
    · have hz : total / (b + 1) = 0 := Nat.div_eq_of_lt (by omega)
      simp [hb, hz, ih]

/-- A successful divisor scan returns a divisor in `[2, b]` that every larger
candidate in the scanned window fails to match. -/
lemma find_divisor_some (total : Nat) :
    ∀ b d, find_divisor total b = some d →
      2 ≤ d ∧ d ≤ b ∧ total % d = 0 ∧ ∀ e, d < e → e ≤ b → total % e ≠ 0 := by
  intro b
  induction b with
  | zero => intro d h; simp [find_divisor] at h
  | succ b ih =>
    intro d h
    match b, h with
    | 0, h => simp [find_divisor] at h
    | Nat.succ b, h =>
      rw [find_divisor] at h
      by_cases hd : total % (b + 2) = 0
      · rw [if_pos hd] at h
        cases h
        exact ⟨by omega, by omega, hd, fun e he1 he2 => by omega⟩
      · rw [if_neg hd] at h
        obtain ⟨h2, hle, hmod, hmax⟩ := ih d h
        exact ⟨h2, by omega, hmod, fun e he1 he2 => by
          by_cases heb : e = b + 2
          · subst heb; exact hd
          · exact hmax e he1 (by omega)⟩

/-- A failed divisor scan means no candidate in `[2, b]` divides `total`. -/
lemma find_divisor_none (total : Nat) :
    ∀ b, find_divisor total b = none → ∀ d, 2 ≤ d → d ≤ b → total % d ≠ 0 := by
  intro b
  induction b with
  | zero => intro _ d h2 hle; omega
  | succ b ih =>
    intro h d h2 hle
    match b, h with
    | 0, h => omega
    | Nat.succ b, h =>
      rw [find_divisor] at h
      by_cases hd : total % (b + 2) = 0
      · rw [if_pos hd] at h; cases h
      · rw [if_neg hd] at h
        by_cases heb : d = b + 2
        · subst heb; exact hd
        · exact ih h d h2 (by omega)

/-- If some candidate in `[2, b]` divides `total`, the scan succeeds. -/
lemma find_divisor_isSome (total : Nat) :
    ∀ b d, 2 ≤ d → d ≤ b → total % d = 0 → ∃ e, find_divisor total b = some e := by
  intro b
  induction b with
  | zero => intro d h2 hle; omega
  | succ b ih =>
    intro d h2 hle hmod
    match b with
    | 0 => omega
    | Nat.succ b =>
      rw [find_divisor]
      by_cases hd : total % (b + 2) = 0
      · exact ⟨b + 2, if_pos hd⟩
      · have hdb : d ≤ b + 1 := by
          by_cases heq : d = b + 2
          · exact absurd (heq ▸ hmod) hd
          · omega
        rw [if_neg hd]
        exact ih d h2 hdb hmod

/-- A successful weighted-split loop run yields positive entries, one per
weight, summing exactly to the `remaining` budget it started from. -/
lemma swLoop_sound (t W : Nat) :
    ∀ ws remaining l, ws ≠ [] → swLoop t W ws remaining = some l →
      (∀ x ∈ l, 0 < x) ∧ l.sum = remaining ∧ l.length = ws.length := by
  intro ws
  induction ws with
  | nil => intro r l h; exact absurd rfl h
  | cons w ws ih =>
    intro r l _ h
    cases ws with
    | nil =>
      rw [swLoop] at h
      cases hr : nzNew r with
      | none => rw [hr] at h; simp at h
      | some s =>
        rw [hr] at h
        simp only [Option.map_some'] at h
        obtain ⟨hs, hrpos⟩ := nzNew_eq_some hr
        cases h
        subst hs
        refine ⟨?_, by simp, by simp⟩
        intro x hx
        rcases List.mem_singleton.mp hx with rfl
        exact hrpos
    | cons w2 ws =>
      rw [swLoop] at h
      cases hs : nzNew (t * w / W) with
      | none => rw [hs] at h; simp at h
      | some s =>
        rw [hs] at h
        simp only [Option.some_bind] at h
        cases hrec : swLoop t W (w2 :: ws) (r - t * w / W) with
        | none => rw [hrec] at h; simp at h
        | some rest =>
          rw [hrec] at h
          simp only [Option.map_some'] at h
          cases h
          obtain ⟨hse, hspos⟩ := nzNew_eq_some hs
          obtain ⟨hallpos, hsum, hlen⟩ := ih (r - t * w / W) rest (by simp) hrec
          have hrest_ne : rest ≠ [] := by
            intro hempty
            rw [hempty] at hlen
            simp at hlen
          have hrest_pos : 0 < rest.sum := by
            cases rest with
            | nil => exact absurd rfl hrest_ne
            | cons y ys =>
              have := hallpos y (List.mem_cons_self y ys)
              simp only [List.sum_cons]
              omega
          constructor
          · intro x hx
            rcases List.mem_cons.mp hx with rfl | hx'
            · exact hse ▸ hspos
            · exact hallpos x hx'
          · constructor
            · simp only [List.sum_cons]
              subst hse
              omega
            · simp [hlen]

/-- Summing elementwise floor-divisions is at most dividing the sum. -/
lemma sum_div_le (W : Nat) : ∀ xs : List Nat, ((xs.map fun a => a / W).sum) ≤ xs.sum / W := by
  intro xs
  induction xs with
  | nil => simp
  | cons x xs ih =>
    simp only [List.map_cons, List.sum_cons]
    calc x / W + ((xs.map fun a => a / W).sum)
        ≤ x / W + xs.sum / W := by omega
      _ ≤ (x + xs.sum) / W := Nat.add_div_le_add_div x xs.sum W

lemma sum_map_mul (t : Nat) : ∀ xs : List Nat, ((xs.map fun w => t * w).sum) = t * xs.sum := by
  intro xs
  induction xs with
  | nil => simp
  | cons x xs ih =>
    simp only [List.map_cons, List.sum_cons, ih, Nat.mul_add]

/-- The proportional shares of all weights but the last sum to strictly less
than the total, so the last batch always has at least one item left. -/
lemma shares_lt_total (t : Nat) (ws : List Nat) (ht : 0 < t) (hne : ws ≠ [])
    (hpos : ∀ w ∈ ws, 0 < w) :
    ((ws.dropLast.map fun w => t * w / ws.sum).sum) < t := by
  have hWpos : 0 < ws.sum := by
    cases ws with
    | nil => exact absurd rfl hne
    | cons w ws =>
      have h1 := hpos w (List.mem_cons_self w ws)
      simp only [List.sum_cons]
      omega
  have hsplit : ws.dropLast.sum + ws.getLast hne = ws.sum := by
    conv_rhs => rw [← List.dropLast_append_getLast hne]
    simp
  have hlast : 0 < ws.getLast hne := hpos _ (List.getLast_mem hne)
  have hdl : ws.dropLast.sum < ws.sum := by omega
  have step1 : ((ws.dropLast.map fun w => t * w / ws.sum).sum)
      ≤ (t * ws.dropLast.sum) / ws.sum := by
    have hmm : (ws.dropLast.map fun w => t * w / ws.sum)
        = ((ws.dropLast.map fun w => t * w).map fun a => a / ws.sum) := by
      rw [List.map_map]
      rfl
    rw [hmm]
    calc (((ws.dropLast.map fun w => t * w).map fun a => a / ws.sum).sum)
        ≤ ((ws.dropLast.map fun w => t * w).sum) / ws.sum := sum_div_le _ _
      _ = (t * ws.dropLast.sum) / ws.sum := by rw [sum_map_mul]
  have step2 : (t * ws.dropLast.sum) / ws.sum < t := by
    rw [Nat.div_lt_iff_lt_mul hWpos]
    exact mul_lt_mul_of_pos_left hdl ht
  omega

/-- Unconditional facts about the `optimize_split` scan: the final remainder
matches the final best count unless the state never changed, the remainder
never increases, the best count never leaves `[min(best, k), ∞)`, and after at
least one iteration the remainder is at most the first candidate's. -/
lemma osLoop_weak (total : Nat) :
    ∀ steps k best minRem,
      ((osLoop total k steps best minRem).2 = total % (osLoop total k steps best minRem).1
        ∨ ((osLoop total k steps best minRem).1 = best
            ∧ (osLoop total k steps best minRem).2 = minRem)) ∧
      (osLoop total k steps best minRem).2 ≤ minRem ∧
      (best ≤ (osLoop total k steps best minRem).1
        ∨ k ≤ (osLoop total k steps best minRem).1) ∧
      (1 ≤ steps → (osLoop total k steps best minRem).2 ≤ total % k) := by
  intro steps
  induction steps with
  | zero =>
    intro k best minRem
    rw [osLoop]
    exact ⟨Or.inr ⟨rfl, rfl⟩, le_refl _, Or.inl (le_refl _), by omega⟩
  | succ steps ih =>
    intro k best minRem
    rw [osLoop]
    by_cases hlt : total % k < minRem
    · rw [if_pos hlt]
      by_cases hz : total % k = 0
      · rw [if_pos hz]
        exact ⟨Or.inl rfl, by omega, Or.inr (le_refl _), fun _ => le_refl _⟩
      · rw [if_neg hz]
        obtain ⟨h1, h2, h3, _⟩ := ih (k + 1) k (total % k)
        refine ⟨?_, by omega, ?_, fun _ => h2⟩
        · rcases h1 with h | ⟨hb, hr⟩
          · exact Or.inl h
          · exact Or.inl (by rw [hb, hr])
        · rcases h3 with h | h
          · exact Or.inr h
          · exact Or.inr (by omega)
    · rw [if_neg hlt]
      by_cases hz : total % k = 0
      · rw [if_pos hz]
        exact ⟨Or.inr ⟨rfl, rfl⟩, le_refl _, Or.inl (le_refl _), fun _ => by omega⟩
      · rw [if_neg hz]
        obtain ⟨h1, h2, h3, _⟩ := ih (k + 1) best minRem
        refine ⟨h1, h2, ?_, fun _ => by omega⟩
        rcases h3 with h | h
        · exact Or.inl h
        · exact Or.inr (by omega)

/-- Precise characterisation of the `optimize_split` scan once one update has
happened: the final state is the smallest candidate achieving the minimum
remainder over the whole window. -/
lemma osLoop_spec (total minb : Nat) :
    ∀ steps k best minRem,
      minRem = total % best → 0 < minRem →
      minb ≤ best → best < k →
      (∀ j, minb ≤ j → j < k → minRem ≤ total % j) →
      (∀ j, minb ≤ j → j < best → minRem < total % j) →
      (osLoop total k steps best minRem).2 = total % (osLoop total k steps best minRem).1 ∧
      minb ≤ (osLoop total k steps best minRem).1 ∧
      (osLoop total k steps best minRem).1 < k + steps ∧
      (∀ j, minb ≤ j → j < k + steps →
        (osLoop total k steps best minRem).2 ≤ total % j) ∧
      (∀ j, minb ≤ j → j < (osLoop total k steps best minRem).1 →
        (osLoop total k steps best minRem).2 < total % j) := by
  intro steps
  induction steps with
  | zero =>
    intro k best minRem h1 h2 h3 h4 h5 h6
    rw [osLoop]
    exact ⟨h1, h3, by omega, fun j hj1 hj2 => h5 j hj1 (by omega), h6⟩
  | succ steps ih =>
    intro k best minRem h1 h2 h3 h4 h5 h6
    rw [osLoop]
    by_cases hlt : total % k < minRem
    · rw [if_pos hlt]
      by_cases hz : total % k = 0
      · rw [if_pos hz]
        refine ⟨rfl, by omega, by omega, ?_, ?_⟩
        · intro j hj1 hj2
          show total % k ≤ total % j
          omega
        · intro j hj1 hj2
          show total % k < total % j
          have := h5 j hj1 (by exact hj2)
          omega
      · rw [if_neg hz]
        have h5' : ∀ j, minb ≤ j → j < k + 1 → total % k ≤ total % j := by
          intro j hj1 hj2
          by_cases hjk : j = k
          · subst hjk; exact le_refl _
          · exact le_trans (by omega) (h5 j hj1 (by omega))
        have h6' : ∀ j, minb ≤ j → j < k → total % k < total % j := by
          intro j hj1 hj2
          exact lt_of_lt_of_le hlt (h5 j hj1 hj2)
        obtain ⟨g1, g2, g3, g4, g5⟩ :=
          ih (k + 1) k (total % k) rfl (Nat.pos_of_ne_zero hz) (by omega) (by omega) h5' h6'
        exact ⟨g1, g2, by omega, fun j hj1 hj2 => g4 j hj1 (by omega), g5⟩
    · rw [if_neg hlt]
      by_cases hz : total % k = 0
      · exact absurd h2 (by omega)
      · rw [if_neg hz]
        have h5' : ∀ j, minb ≤ j → j < k + 1 → minRem ≤ total % j := by
          intro j hj1 hj2
          by_cases hjk : j = k
          · subst hjk; omega
          · exact h5 j hj1 (by omega)
        obtain ⟨g1, g2, g3, g4, g5⟩ := ih (k + 1) best minRem h1 h2 h3 (by omega) h5' h6
        exact ⟨g1, g2, by omega, fun j hj1 hj2 => g4 j hj1 (by omega), g5⟩

/-- Validated branch of `even_split` when the total exceeds the maximum. -/
lemma even_split_of_find (total m : Nat) (h0 : total ≠ 0) (hm0 : m ≠ 0) (hlt : m < total) :
    even_split total m
      = match find_divisor total m with
        | some d => (nzNew d).map fun s => Except.ok (total / d, List.replicate (total / d) s)
        | none => (nzNew 1).map fun s => Except.ok (total, List.replicate total s) := by
  unfold even_split
  rw [if_neg h0, if_neg hm0, if_neg (by omega)]

/-- Validated branch of `split_weighted`. -/
lemma split_weighted_validated (total : Nat) (weights : List Nat) (h0 : total ≠ 0)
    (hne : weights ≠ []) (hz : ¬ (weights.any fun w => w == 0) = true) :
    split_weighted total weights = (swLoop total weights.sum weights total).map Except.ok := by
  unfold split_weighted
  rw [if_neg h0, if_neg hne, if_neg hz]

/-- Validated branch of `optimize_split`. -/
lemma optimize_split_validated (total minb maxb : Nat) (h0 : total ≠ 0) (hm0 : minb ≠ 0)
    (hle : minb ≤ maxb) :
    optimize_split total minb maxb
      = osBuild total (osLoop total minb (maxb - minb + 1) minb total).1
          (osLoop total minb (maxb - minb + 1) minb total).2 := by
  unfold optimize_split
  rw [if_neg h0, if_neg hm0, if_neg (by omega)]

/-- Validated branch of `split_with_min_batch`. -/
lemma split_with_min_batch_validated (total mx mn : Nat) (h0 : total ≠ 0) (hm0 : mx ≠ 0)
    (hle : mn ≤ mx) :
    split_with_min_batch total mx mn
      = ((checkedDiv (total + mn - 1) mn).bind fun num_batches =>
        (checkedDiv total num_batches).bind fun base_size =>
        (checkedMod total num_batches).bind fun remainder =>
        (nzAll ((List.range num_batches).map fun i =>
            base_size + if i < remainder then 1 else 0)).map fun sizes =>
          Except.ok (num_batches, sizes)) := by
  unfold split_with_min_batch
  rw [if_neg h0, if_neg hm0, if_neg (by omega)]

/-- Validated branch of `split_by_count`. -/
lemma split_by_count_validated (total n : Nat) (h0 : total ≠ 0) (hn0 : n ≠ 0) :
    split_by_count total n
      = sbcLoop ((List.range n).map fun i =>
          total / n + if i < total % n then 1 else 0) := by
  unfold split_by_count
  rw [if_neg h0, if_neg hn0]

/-- Validated branch of `split_with_remainder`. -/
lemma split_with_remainder_validated (total m : Nat) (h0 : total ≠ 0) (hm0 : m ≠ 0) :
    split_with_remainder total m
      = if total / m = 0 then (nzNew total).map fun t => Except.ok (1, [t], 0)
        else (nzNew m).map fun mm =>
          Except.ok (total / m, List.replicate (total / m) mm, total % m) := by
  unfold split_with_remainder
  rw [if_neg h0, if_neg hm0]

/-- C5: `even_split` returns one batch when the total fits, else `total / d`
uniform batches of the largest divisor `d` of `total` in `[2, max]`, else
`total` unit batches when no such divisor exists. -/
theorem even_split_spec (total max_batch_size : Nat) (ht : 0 < total)
    (hm : 0 < max_batch_size) :
    (total ≤ max_batch_size →
      even_split total max_batch_size = some (Except.ok (1, [total]))) ∧
    (max_batch_size < total →
      (∃ d, 2 ≤ d ∧ d ≤ max_batch_size ∧ d ∣ total) →
      ∃ dm, 2 ≤ dm ∧ dm ≤ max_batch_size ∧ dm ∣ total ∧
        (∀ e, 2 ≤ e → e ≤ max_batch_size → e ∣ total → e ≤ dm) ∧
        even_split total max_batch_size
          = some (Except.ok (total / dm, List.replicate (total / dm) dm))) ∧
    (max_batch_size < total → (∀ d, 2 ≤ d → d ≤ max_batch_size → ¬ d ∣ total) →
      even_split total max_batch_size = some (Except.ok (total, List.replicate total 1))) := by
  refine ⟨?_, ?_, ?_⟩
  · intro hle
    unfold even_split
    rw [if_neg (by omega), if_neg (by omega), if_pos hle, nzNew_pos ht]
    rfl
  · rintro hlt ⟨d, hd2, hdm, hdvd⟩
    have hmod : total % d = 0 := Nat.mod_eq_zero_of_dvd hdvd
    obtain ⟨e, he⟩ := find_divisor_isSome total max_batch_size d hd2 hdm hmod
    obtain ⟨he2, hem, hemod, hemax⟩ := find_divisor_some total max_batch_size e he
    refine ⟨e, he2, hem, Nat.dvd_of_mod_eq_zero hemod, ?_, ?_⟩
    · intro f hf2 hfm hfdvd
      by_contra hgt
      exact hemax f (by omega) hfm (Nat.mod_eq_zero_of_dvd hfdvd)
    · rw [even_split_of_find total max_batch_size (by omega) (by omega) hlt]
      simp only [he, nzNew_pos (show 0 < e by omega), Option.map_some']
  · intro hlt hno
    have hfd : find_divisor total max_batch_size = none := by
      cases hcase : find_divisor total max_batch_size with
      | none => rfl
      | some d =>
        obtain ⟨h2, hm2, hmod, _⟩ := find_divisor_some total max_batch_size d hcase
        exact absurd (Nat.dvd_of_mod_eq_zero hmod) (hno d h2 hm2)
    rw [even_split_of_find total max_batch_size (by omega) (by omega) hlt]
    simp only [hfd, nzNew_pos (show (0:Nat) < 1 by omega), Option.map_some']

/-- C5 witness: the boundary case at `total = 7 ≤ max = 8`. -/
theorem even_split_spec_witness : even_split 7 8 = some (Except.ok (1, [7])) :=
  (even_split_spec 7 8 (by decide) (by decide)).1 (by decide)

/-- C2: the claim that for valid inputs (total > 0, non-empty strictly
positive weights for `split_weighted`; total > 0, 0 < min_batches ≤
max_batches for `optimize_split`) the `NonZeroUsize` construction step never
fails is refuted by the code: `split_weighted 1 [1, 1]` computes the first
proportional share as `1 * 1 / 2 = 0` and panics unwrapping it, and
`optimize_split 1 2 3` computes base size `1 / 2 = 0` and panics likewise. -/
theorem nonzero_construction_panics :
    split_weighted 1 [1, 1] = none ∧ optimize_split 1 2 3 = none :=
  ⟨rfl, rfl⟩

/-- C3: the claim that `split_with_min_batch` rejects `min_batch_size = 0`
with an error is refuted by the code: the validation only checks `total`,
`max_batch_size` and `min > max`, so `min_batch_size = 0` reaches
`(total + min_batch_size - 1) / min_batch_size`, a division by zero, which
panics instead of returning an error. -/
theorem split_with_min_batch_zero_min_panics :
    split_with_min_batch 10 5 0 = none :=
  rfl

/-- C4 counterexample: at `total = 55`, `max_batch_size = 20`,
`min_batch_size = 10` the function succeeds with six batches
`[10, 9, 9, 9, 9, 9]`, five of which are strictly below `min_batch_size`,
refuting the claim that every returned batch size is at least
`min_batch_size`. -/
theorem split_with_min_batch_below_min_cex :
    split_with_min_batch 55 20 10 = some (Except.ok (6, [10, 9, 9, 9, 9, 9])) ∧
      ¬ (∀ s ∈ [10, 9, 9, 9, 9, 9], 10 ≤ s) :=
  ⟨rfl, by decide⟩

/-- C6 counterexample: with `total = 2 < min_batches = 3` the code panics
(`NonZeroUsize::new(2 / 3).unwrap()`) instead of returning the batch count
minimizing `total % k`, refuting the claim for inputs satisfying its stated
preconditions `total > 0`, `min_batches > 0`, `max_batches ≥ min_batches`. -/
theorem optimize_split_total_lt_min_cex :
    optimize_split 2 3 4 = none :=
  rfl

/-- C7 counterexample: for `total = 5`, `weights = [1, 9]` the stated
preconditions hold (positive total, non-empty strictly positive weights), yet
the code panics on the first share `5 * 1 / 10 = 0` instead of returning one
batch size per weight. -/
theorem split_weighted_zero_share_cex :
    split_weighted 5 [1, 9] = none :=
  rfl

/-- C9: the successful result of `split_with_min_batch` does not depend on
`max_batch_size`: for any two maxima that pass validation the results are
identical, `max_batch_size` being used only in the entry checks. -/
theorem split_with_min_batch_max_independent
    (total min_batch_size max1 max2 : Nat) (ht : 0 < total) (hm : 0 < min_batch_size)
    (h1 : 0 < max1) (h2 : 0 < max2) (hle1 : min_batch_size ≤ max1)
    (hle2 : min_batch_size ≤ max2) :
    split_with_min_batch total max1 min_batch_size
      = split_with_min_batch total max2 min_batch_size := by
  unfold split_with_min_batch
  split_ifs <;> first | rfl | omega

/-- C9 witness: instantiation at `total = 55`, `min = 10`, maxima 20 and 37. -/
theorem split_with_min_batch_max_independent_witness :
    split_with_min_batch 55 20 10 = split_with_min_batch 55 37 10 :=
  split_with_min_batch_max_independent 55 10 20 37 (by decide) (by decide)
    (by decide) (by decide) (by decide) (by decide)

/-- C10: for a valid range whose minimum batch size exceeds the total,
`split_range` succeeds with an empty configuration list: every candidate
size yields zero whole batches and is filtered out. -/
theorem split_range_empty_when_min_exceeds_total
    (total min_batch_size max_batch_size : Nat) (ht : 0 < total)
    (hmin : 0 < min_batch_size) (hle : min_batch_size ≤ max_batch_size)
    (hgt : total < min_batch_size) :
    split_range total min_batch_size max_batch_size = Except.ok [] := by
  unfold split_range
  rw [if_neg (by omega), if_neg (by omega), if_neg (by omega),
    srLoop_eq_nil total min_batch_size hgt]

/-- C10 witness: instantiation at `total = 5`, range `[10, 12]`. -/
theorem split_range_empty_when_min_exceeds_total_witness :
    split_range 5 10 12 = Except.ok [] :=
  split_range_empty_when_min_exceeds_total 5 10 12 (by decide) (by decide)
    (by decide) (by decide)

/-- When every non-last proportional share is positive and enough budget is
left for the last batch, the weighted loop produces exactly the floor shares
followed by the whole remaining budget. -/
lemma swLoop_eq (t W : Nat) :
    ∀ (ws : List Nat) (remaining : Nat), ws ≠ [] →
      (∀ w ∈ ws.dropLast, 0 < t * w / W) →
      0 < remaining - ((ws.dropLast.map fun w => t * w / W).sum) →
      swLoop t W ws remaining
        = some ((ws.dropLast.map fun w => t * w / W)
            ++ [remaining - ((ws.dropLast.map fun w => t * w / W).sum)]) := by
  intro ws
  induction ws with
  | nil => intro r h; exact absurd rfl h
  | cons w ws ih =>
    intro r _ hsh hrem
    cases ws with
    | nil =>
      rw [swLoop]
      simp only [List.dropLast_single, List.map_nil, List.sum_nil, Nat.sub_zero] at hrem ⊢
      rw [nzNew_pos hrem]
      rfl
    | cons w2 ws =>
      rw [swLoop]
      have hdl : (w :: w2 :: ws).dropLast = w :: (w2 :: ws).dropLast :=
        List.dropLast_cons₂
      rw [hdl] at hsh hrem
      simp only [List.map_cons, List.sum_cons] at hrem
      have hw : 0 < t * w / W := hsh w (List.mem_cons_self _ _)
      have hsh' : ∀ x ∈ (w2 :: ws).dropLast, 0 < t * x / W :=
        fun x hx => hsh x (List.mem_cons_of_mem _ hx)
      have hrem' : 0 < (r - t * w / W) - (((w2 :: ws).dropLast.map fun x => t * x / W).sum) := by
        rw [Nat.sub_sub]
        exact hrem
      rw [nzNew_pos hw]
      simp only [Option.some_bind]
      rw [ih (r - t * w / W) (by simp) hsh' hrem']
      simp only [Option.map_some', hdl, List.map_cons, List.sum_cons, Nat.sub_sub,
        List.cons_append]

/-- C7 (amended): for a positive total and non-empty strictly positive
weights whose non-last proportional shares are all at least one item,
`split_weighted` returns one batch per weight: every batch but the last is
`total * w / sum(weights)` (floor), and the last batch in input order
receives `total` minus the sum of all earlier batches. -/
theorem split_weighted_spec (total : Nat) (weights : List Nat) (ht : 0 < total)
    (hne : weights ≠ []) (hpos : ∀ w ∈ weights, 0 < w)
    (hshare : ∀ w ∈ weights.dropLast, 0 < total * w / weights.sum) :
    split_weighted total weights
      = some (Except.ok ((weights.dropLast.map fun w => total * w / weights.sum)
          ++ [total - ((weights.dropLast.map fun w => total * w / weights.sum).sum)])) := by
  have hany : ¬ (weights.any fun w => w == 0) = true := by
    simp only [List.any_eq_true, beq_iff_eq]
    rintro ⟨w, hw, rfl⟩
    exact absurd (hpos 0 hw) (by omega)
  rw [split_weighted_validated total weights (by omega) hne hany,
    swLoop_eq total weights.sum weights total hne hshare
      (by have := shares_lt_total total weights ht hne hpos; omega)]
  rfl

/-- C7 witness: `split_weighted 100 [1, 2, 3]`, where the sum of weights is 6
and the last batch absorbs the rounding losses: `[16, 33, 51]`. -/
theorem split_weighted_spec_witness :
    split_weighted 100 [1, 2, 3] = some (Except.ok [16, 33, 51]) :=
  (split_weighted_spec 100 [1, 2, 3] (by decide) (by decide) (by decide)
    (by decide)).trans rfl

/-- C8: `split_by_count` errors exactly when the total is zero, the batch
count is zero, or a computed batch size would be zero — which happens exactly
when `num_batches > total` — and the zero-size case carries the distinct
`NonZeroUsize` message; in every other case it returns `num_batches` sizes,
the first `total % num_batches` of them `total / num_batches + 1` and the
rest `total / num_batches`. -/
theorem split_by_count_spec (total num_batches : Nat) :
    ((∃ e, split_by_count total num_batches = Except.error e)
      ↔ (total = 0 ∨ num_batches = 0 ∨ total < num_batches)) ∧
    (0 < total → 0 < num_batches → total < num_batches →
      split_by_count total num_batches = Except.error errNz) ∧
    (0 < total → 0 < num_batches → num_batches ≤ total →
      split_by_count total num_batches
        = Except.ok ((List.range num_batches).map fun i =>
            if i < total % num_batches
            then total / num_batches + 1
            else total / num_batches)) := by
  have herr : 0 < total → 0 < num_batches → total < num_batches →
      split_by_count total num_batches = Except.error errNz := by
    intro ht hn hlt
    rw [split_by_count_validated total num_batches (by omega) (by omega), sbcLoop_eq,
      if_pos]
    have hmem : total ∈ List.range num_batches := List.mem_range.mpr hlt
    refine List.mem_map.mpr ⟨total, hmem, ?_⟩
    have h1 : total / num_batches = 0 := Nat.div_eq_of_lt hlt
    have h2 : total % num_batches = total := Nat.mod_eq_of_lt hlt
    rw [h1, h2, if_neg (by omega)]
  have hok : 0 < total → 0 < num_batches → num_batches ≤ total →
      split_by_count total num_batches
        = Except.ok ((List.range num_batches).map fun i =>
            if i < total % num_batches
            then total / num_batches + 1
            else total / num_batches) := by
    intro ht hn hle
    rw [split_by_count_validated total num_batches (by omega) (by omega), sbcLoop_eq,
      if_neg]
    · congr 1
      refine List.map_congr_left ?_
      intro i _
      by_cases hi : i < total % num_batches
      · simp [hi]
      · simp [hi]
    · intro hmem
      obtain ⟨i, _, hi⟩ := List.mem_map.mp hmem
      have hbase : 1 ≤ total / num_batches := (Nat.one_le_div_iff hn).mpr hle
      by_cases hlt : i < total % num_batches
      · rw [if_pos hlt] at hi; omega
      · rw [if_neg hlt] at hi; omega
  refine ⟨⟨?_, ?_⟩, herr, hok⟩
  · rintro ⟨e, he⟩
    by_cases h0 : total = 0
    · exact Or.inl h0
    by_cases hn0 : num_batches = 0
    · exact Or.inr (Or.inl hn0)
    by_cases hlt : total < num_batches
    · exact Or.inr (Or.inr hlt)
    exfalso
    rw [hok (by omega) (by omega) (by omega)] at he
    exact Except.noConfusion he
  · intro h
    by_cases h0 : total = 0
    · exact ⟨errTotal, by unfold split_by_count; rw [if_pos h0]⟩
    by_cases hn0 : num_batches = 0
    · exact ⟨errNumBatches, by unfold split_by_count; rw [if_neg h0, if_pos hn0]⟩
    have hlt : total < num_batches := by
      rcases h with h | h | h
      · exact absurd h h0
      · exact absurd h hn0
      · exact h
    exact ⟨errNz, herr (by omega) (by omega) hlt⟩

/-- C8 witness: `split_by_count 10 3 = ok [4, 3, 3]` via the success case. -/
theorem split_by_count_spec_witness : split_by_count 10 3 = Except.ok [4, 3, 3] :=
  ((split_by_count_spec 10 3).2.2 (by decide) (by decide) (by decide)).trans rfl

/-- C4 (amended): for `total > 0` and `0 < min_batch_size ≤ max_batch_size`,
`split_with_min_batch` succeeds with batch count
`(total + min_batch_size - 1) / min_batch_size` (the ceiling of
`total / min_batch_size`), the first `total % count` batches of size
`total / count + 1` and the rest of size `total / count`.  The original
claim's guarantee that every batch is at least `min_batch_size` does not
hold (see the counterexample), and `min_batch_size = 0` must be excluded
because the code divides by it. -/
theorem split_with_min_batch_spec (total max_batch_size min_batch_size : Nat)
    (ht : 0 < total) (hmin : 0 < min_batch_size) (hle : min_batch_size ≤ max_batch_size) :
    split_with_min_batch total max_batch_size min_batch_size
      = some (Except.ok ((total + min_batch_size - 1) / min_batch_size,
          (List.range ((total + min_batch_size - 1) / min_batch_size)).map fun i =>
            if i < total % ((total + min_batch_size - 1) / min_batch_size)
            then total / ((total + min_batch_size - 1) / min_batch_size) + 1
            else total / ((total + min_batch_size - 1) / min_batch_size))) := by
  rw [split_with_min_batch_validated total max_batch_size min_batch_size (by omega)
    (by omega) hle]
  set num := (total + min_batch_size - 1) / min_batch_size with hnum
  have hnum1 : 1 ≤ num := by
    rw [hnum, Nat.le_div_iff_mul_le hmin]
    omega
  have hnumt : num ≤ total := by
    have h1 : total * 1 ≤ total * min_batch_size := Nat.mul_le_mul_left total hmin
    have h2 : total + min_batch_size - 1 < (total + 1) * min_batch_size := by
      have h3 : (total + 1) * min_batch_size = total * min_batch_size + min_batch_size := by
        ring
      omega
    have h4 := (Nat.div_lt_iff_lt_mul hmin).mpr h2
    omega
  have hbase : 1 ≤ total / num := (Nat.one_le_div_iff (by omega)).mpr hnumt
  rw [checkedDiv_pos (total + min_batch_size - 1) hmin]
  simp only [Option.some_bind]
  rw [checkedDiv_pos total (by omega : 0 < num), checkedMod_pos total (by omega : 0 < num)]
  simp only [Option.some_bind]
  rw [nzAll_eq, if_neg]
  · simp only [Option.map_some', Option.some.injEq, Except.ok.injEq, Prod.mk.injEq,
      true_and]
    refine List.map_congr_left ?_
    intro i _
    by_cases hi : i < total % num
    · simp [hi]
    · simp [hi]
  · intro hmem
    obtain ⟨i, _, hi⟩ := List.mem_map.mp hmem
    by_cases hlt : i < total % num
    · rw [if_pos hlt] at hi; omega
    · rw [if_neg hlt] at hi; omega

/-- C4 witness: `split_with_min_batch 50 20 10` succeeds with
`ceil(50 / 10) = 5` batches of `10` each. -/
theorem split_with_min_batch_spec_witness :
    split_with_min_batch 50 20 10 = some (Except.ok (5, [10, 10, 10, 10, 10])) :=
  (split_with_min_batch_spec 50 20 10 (by decide) (by decide) (by decide)).trans rfl

/-- C6 (amended): for `total > 0`, `0 < min_batches ≤ max_batches` and
`min_batches ≤ total`, `optimize_split` returns the batch count `k` in
`[min_batches, max_batches]` minimizing `total % k`, the smallest such `k`
on ties, and `k` batch sizes of which the first `total % k` are
`total / k + 1` and the rest `total / k`.  The original claim omitted
`min_batches ≤ total`, without which the code panics (see the
counterexample). -/
theorem optimize_split_spec (total min_batches max_batches : Nat) (ht : 0 < total)
    (hmin : 0 < min_batches) (hle : min_batches ≤ max_batches)
    (hmt : min_batches ≤ total) :
    ∃ k, min_batches ≤ k ∧ k ≤ max_batches ∧
      (∀ j, min_batches ≤ j → j ≤ max_batches → total % k ≤ total % j) ∧
      (∀ j, min_batches ≤ j → j < k → total % k < total % j) ∧
      optimize_split total min_batches max_batches
        = some (Except.ok (k, (List.range k).map fun i =>
            if i < total % k then total / k + 1 else total / k)) := by
  rw [optimize_split_validated total min_batches max_batches (by omega) (by omega) hle]
  have hmodlt : total % min_batches < min_batches := Nat.mod_lt total hmin
  have hfirst : total % min_batches < total := by omega
  by_cases hz : total % min_batches = 0
  · have hloop : osLoop total min_batches (max_batches - min_batches + 1) min_batches total
        = (min_batches, total % min_batches) := by
      rw [osLoop, if_pos hfirst, if_pos hz]
    have hp1 : (osLoop total min_batches (max_batches - min_batches + 1)
        min_batches total).1 = min_batches := by rw [hloop]
    have hp2 : (osLoop total min_batches (max_batches - min_batches + 1)
        min_batches total).2 = total % min_batches := by rw [hloop]
    refine ⟨min_batches, le_refl _, hle, ?_, ?_, ?_⟩
    · intro j _ _
      rw [hz]
      exact Nat.zero_le _
    · intro j hj1 hj2
      exact absurd hj1 (by omega)
    · rw [hp1, hp2]
      unfold osBuild
      rw [nzNew_pos ((Nat.one_le_div_iff hmin).mpr hmt)]
      rfl
  · have hrec : osLoop total min_batches (max_batches - min_batches + 1) min_batches total
        = osLoop total (min_batches + 1) (max_batches - min_batches) min_batches
            (total % min_batches) := by
      rw [osLoop, if_pos hfirst, if_neg hz]
    obtain ⟨g1, g2, g3, g4, g5⟩ := osLoop_spec total min_batches (max_batches - min_batches)
      (min_batches + 1) min_batches (total % min_batches) rfl (Nat.pos_of_ne_zero hz)
      (le_refl _) (by omega)
      (fun j hj1 hj2 => by
        have hj : j = min_batches := by omega
        rw [hj])
      (fun j hj1 hj2 => absurd hj1 (by omega))
    set q := osLoop total (min_batches + 1) (max_batches - min_batches) min_batches
      (total % min_batches) with hq
    have hqmax : q.1 ≤ max_batches := by omega
    have hq4 : ∀ j, min_batches ≤ j → j ≤ max_batches → q.2 ≤ total % j := by
      intro j hj1 hj2
      exact g4 j hj1 (by omega)
    have hqt : q.1 ≤ total := by
      by_contra hgt
      have hmq : total % q.1 = total := Nat.mod_eq_of_lt (by omega)
      have h5 := hq4 min_batches (le_refl _) hle
      rw [hmq] at g1
      omega
    refine ⟨q.1, g2, hqmax, ?_, ?_, ?_⟩
    · intro j hj1 hj2
      rw [← g1]
      exact hq4 j hj1 hj2
    · intro j hj1 hj2
      rw [← g1]
      exact g5 j hj1 hj2
    · rw [hrec]
      unfold osBuild
      rw [nzNew_pos ((Nat.one_le_div_iff (by omega)).mpr hqt)]
      simp only [Option.map_some', Option.some.injEq, Except.ok.injEq, Prod.mk.injEq,
        true_and]
      rw [g1]

/-- C6 witness: `optimize_split 100 3 5` picks `k = 4` (the smallest count in
`[3, 5]` with zero remainder) and returns four batches of 25. -/
theorem optimize_split_spec_witness :
    ∃ k, 3 ≤ k ∧ k ≤ 5 ∧
      (∀ j, 3 ≤ j → j ≤ 5 → 100 % k ≤ 100 % j) ∧
      (∀ j, 3 ≤ j → j < k → 100 % k < 100 % j) ∧
      optimize_split 100 3 5
        = some (Except.ok (k, (List.range k).map fun i =>
            if i < 100 % k then 100 / k + 1 else 100 / k)) :=
  optimize_split_spec 100 3 5 (by decide) (by decide) (by decide) (by decide)

/-- C1: conservation.  For every size-returning function and every input on
which it succeeds, the sum of the returned batch sizes — plus the separately
reported remainder for `split_with_remainder` — equals the caller-supplied
total exactly. -/
theorem batch_sum_conservation :
    (∀ total max_batch_size k sizes,
      even_split total max_batch_size = some (Except.ok (k, sizes)) →
        sizes.sum = total) ∧
    (∀ total weights sizes,
      split_weighted total weights = some (Except.ok sizes) → sizes.sum = total) ∧
    (∀ total min_batches max_batches k sizes,
      optimize_split total min_batches max_batches = some (Except.ok (k, sizes)) →
        sizes.sum = total) ∧
    (∀ total max_batch_size min_batch_size k sizes,
      split_with_min_batch total max_batch_size min_batch_size
        = some (Except.ok (k, sizes)) → sizes.sum = total) ∧
    (∀ total num_batches sizes,
      split_by_count total num_batches = Except.ok sizes → sizes.sum = total) ∧
    (∀ total max_batch_size k sizes rem,
      split_with_remainder total max_batch_size = some (Except.ok (k, sizes, rem)) →
        sizes.sum + rem = total) := by
  refine ⟨?_, ?_, ?_, ?_, ?_, ?_⟩
  · intro t m k l h
    by_cases h0 : t = 0
    · unfold even_split at h; rw [if_pos h0] at h; simp at h
    by_cases hm0 : m = 0
    · unfold even_split at h; rw [if_neg h0, if_pos hm0] at h; simp at h
    by_cases hlem : t ≤ m
    · unfold even_split at h
      rw [if_neg h0, if_neg hm0, if_pos hlem, nzNew_pos (Nat.pos_of_ne_zero h0)] at h
      simp only [Option.map_some', Option.some.injEq, Except.ok.injEq,
        Prod.mk.injEq] at h
      obtain ⟨_, hl⟩ := h
      rw [← hl]
      simp
    · rw [even_split_of_find t m h0 hm0 (by omega)] at h
      cases hfd : find_divisor t m with
      | some d =>
        obtain ⟨hd2, _, hmod, _⟩ := find_divisor_some t m d hfd
        rw [hfd] at h
        simp only [nzNew_pos (show 0 < d by omega), Option.map_some', Option.some.injEq,
          Except.ok.injEq, Prod.mk.injEq] at h
        obtain ⟨_, hl⟩ := h
        rw [← hl, List.sum_const_nat]
        exact Nat.div_mul_cancel (Nat.dvd_of_mod_eq_zero hmod)
      | none =>
        rw [hfd] at h
        simp only [nzNew_pos (show (0:Nat) < 1 by omega), Option.map_some',
          Option.some.injEq, Except.ok.injEq, Prod.mk.injEq] at h
        obtain ⟨_, hl⟩ := h
        rw [← hl, List.sum_const_nat]
        omega
  · intro t ws l h
    by_cases h0 : t = 0
    · unfold split_weighted at h; rw [if_pos h0] at h; simp at h
    by_cases hne : ws = []
    · unfold split_weighted at h; rw [if_neg h0, if_pos hne] at h; simp at h
    by_cases hany : (ws.any fun w => w == 0) = true
    · unfold split_weighted at h; rw [if_neg h0, if_neg hne, if_pos hany] at h; simp at h
    rw [split_weighted_validated t ws h0 hne hany] at h
    cases hsw : swLoop t ws.sum ws t with
    | none => rw [hsw] at h; simp at h
    | some l' =>
      rw [hsw] at h
      simp only [Option.map_some', Option.some.injEq, Except.ok.injEq] at h
      subst h
      exact (swLoop_sound t ws.sum ws t l' hne hsw).2.1
  · intro t a b k l h
    by_cases h0 : t = 0
    · unfold optimize_split at h; rw [if_pos h0] at h; simp at h
    by_cases ha0 : a = 0
    · unfold optimize_split at h; rw [if_neg h0, if_pos ha0] at h; simp at h
    by_cases hba : b < a
    · unfold optimize_split at h; rw [if_neg h0, if_neg ha0, if_pos hba] at h; simp at h
    rw [optimize_split_validated t a b h0 ha0 (by omega)] at h
    obtain ⟨w1, w2, w3, w4⟩ := osLoop_weak t (b - a + 1) a a t
    set q := osLoop t a (b - a + 1) a t with hq
    unfold osBuild at h
    cases hnz : nzNew (t / q.1) with
    | none => rw [hnz] at h; simp at h
    | some base =>
      obtain ⟨hbase_eq, hbase_pos⟩ := nzNew_eq_some hnz
      subst hbase_eq
      rw [hnz] at h
      simp only [Option.map_some', Option.some.injEq, Except.ok.injEq,
        Prod.mk.injEq] at h
      obtain ⟨hk, hl⟩ := h
      have hq1pos : 0 < q.1 := by
        rcases w3 with h' | h' <;> omega
      have hqt : q.1 ≤ t := by
        by_contra hgt
        have hz : t / q.1 = 0 := Nat.div_eq_of_lt (by omega)
        omega
      have hrem : q.2 = t % q.1 := by
        rcases w1 with h' | ⟨hb, hr⟩
        · exact h'
        · have hw4 := w4 (by omega)
          have hma : t % a < a := Nat.mod_lt t (by omega)
          omega
      rw [← hl, sum_dist', hrem,
        Nat.min_eq_left (le_of_lt (Nat.mod_lt t hq1pos))]
      exact Nat.div_add_mod t q.1
  · intro t mx mn k l h
    by_cases h0 : t = 0
    · unfold split_with_min_batch at h; rw [if_pos h0] at h; simp at h
    by_cases hmx0 : mx = 0
    · unfold split_with_min_batch at h; rw [if_neg h0, if_pos hmx0] at h; simp at h
    by_cases hlemn : mx < mn
    · unfold split_with_min_batch at h
      rw [if_neg h0, if_neg hmx0, if_pos hlemn] at h; simp at h
    rw [split_with_min_batch_validated t mx mn h0 hmx0 (by omega)] at h
    by_cases hmn0 : mn = 0
    · subst hmn0; simp [checkedDiv] at h
    rw [checkedDiv_pos _ (Nat.pos_of_ne_zero hmn0)] at h
    simp only [Option.some_bind] at h
    set num := (t + mn - 1) / mn with hnum
    by_cases hnum0 : num = 0
    · rw [hnum0] at h; simp [checkedDiv] at h
    rw [checkedDiv_pos t (Nat.pos_of_ne_zero hnum0),
      checkedMod_pos t (Nat.pos_of_ne_zero hnum0)] at h
    simp only [Option.some_bind] at h
    rw [nzAll_eq] at h
    by_cases hmem : 0 ∈ (List.range num).map fun i => t / num + if i < t % num then 1 else 0
    · rw [if_pos hmem] at h; simp at h
    · rw [if_neg hmem] at h
      simp only [Option.map_some', Option.some.injEq, Except.ok.injEq,
        Prod.mk.injEq] at h
      obtain ⟨hk, hl⟩ := h
      rw [← hl, sum_dist,
        Nat.min_eq_left (le_of_lt (Nat.mod_lt t (Nat.pos_of_ne_zero hnum0)))]
      exact Nat.div_add_mod t num
  · intro t n l h
    by_cases h0 : t = 0
    · unfold split_by_count at h; rw [if_pos h0] at h; exact Except.noConfusion h
    by_cases hn0 : n = 0
    · unfold split_by_count at h; rw [if_neg h0, if_pos hn0] at h
      exact Except.noConfusion h
    rw [split_by_count_validated t n h0 hn0, sbcLoop_eq] at h
    by_cases hmem : 0 ∈ (List.range n).map fun i => t / n + if i < t % n then 1 else 0
    · rw [if_pos hmem] at h; exact Except.noConfusion h
    · rw [if_neg hmem] at h
      simp only [Except.ok.injEq] at h
      rw [← h, sum_dist,
        Nat.min_eq_left (le_of_lt (Nat.mod_lt t (Nat.pos_of_ne_zero hn0)))]
      exact Nat.div_add_mod t n
  · intro t m k l r h
    by_cases h0 : t = 0
    · unfold split_with_remainder at h; rw [if_pos h0] at h; simp at h
    by_cases hm0 : m = 0
    · unfold split_with_remainder at h; rw [if_neg h0, if_pos hm0] at h; simp at h
    rw [split_with_remainder_validated t m h0 hm0] at h
    by_cases hdiv : t / m = 0
    · rw [if_pos hdiv, nzNew_pos (Nat.pos_of_ne_zero h0)] at h
      simp only [Option.map_some', Option.some.injEq, Except.ok.injEq,
        Prod.mk.injEq] at h
      obtain ⟨_, hl, hr⟩ := h
      rw [← hl, ← hr]
      simp
    · rw [if_neg hdiv, nzNew_pos (Nat.pos_of_ne_zero hm0)] at h
      simp only [Option.map_some', Option.some.injEq, Except.ok.injEq,
        Prod.mk.injEq] at h
      obtain ⟨_, hl, hr⟩ := h
      rw [← hl, ← hr, List.sum_const_nat, Nat.mul_comm]
      exact Nat.div_add_mod t m

/-- C1 witness: `split_with_remainder 50 8` yields six full batches of 8 and
remainder 2, and `6 * 8 + 2 = 50`. -/
theorem batch_sum_conservation_witness : (List.replicate 6 8).sum + 2 = 50 :=
  batch_sum_conservation.2.2.2.2.2 50 8 6 (List.replicate 6 8) 2 rfl

end BatchMaestro
